import Mathlib

/-!
Verification development for the transcript utilities of the repository:
`transcript_lib.py` (timestamp codec, chapter-aware reflow engine) and
`transcript_segment.py` (segment locator, claim locator).

Embedding conventions:
* Python strings are `List Char` (`PyStr`); `lower`/`strip`/`split` are
  modelled for ASCII.
* Python floats are modelled as exact rationals `ℚ`.
* Python ints are `Int`; `//` and `%` on ints are Euclidean division, which
  agrees with Python's floored semantics for the positive divisors used here.
* Fallible operations return `Option` or `Except PyErr`.
-/

abbrev PyStr := List Char

def pstr (s : String) : PyStr := s.data

/-- The Python exceptions that the embedded code can raise. -/
inductive PyErr where
  | keyError (key : PyStr)
  | valueError (msg : PyStr)
  | zeroDivisionError
deriving DecidableEq

/-- Python whitespace characters (ASCII subset), as recognised by
`str.strip()` and no-argument `str.split()`. -/
def isPyWS (c : Char) : Bool :=
  c = ' ' || c = '\t' || c = '\n' || c = '\r' || c = '\x0b' || c = '\x0c'

def digitChar (d : Nat) : Char :=
  match d with
  | 0 => '0'
  | 1 => '1'
  | 2 => '2'
  | 3 => '3'
  | 4 => '4'
  | 5 => '5'
  | 6 => '6'
  | 7 => '7'
  | 8 => '8'
  | _ => '9'

def digitVal (c : Char) : Nat := c.toNat - 48

/-- Decimal digits of `n`, most significant first; the fuel argument makes the
recursion structural (any fuel `≥ n` gives the digits of `n`). -/
def natToStrAux : Nat → Nat → PyStr
  | 0, _ => []
  | _ + 1, 0 => []
  | fuel + 1, n + 1 => natToStrAux fuel ((n + 1) / 10) ++ [digitChar ((n + 1) % 10)]

/-- Python `str(n)` for a natural number. -/
def natToStr (n : Nat) : PyStr := if n = 0 then ['0'] else natToStrAux n n

def padLeft (c : Char) (w : Nat) (s : PyStr) : PyStr :=
  List.replicate (w - s.length) c ++ s

/-- Python format `f"..."` of an int with zero padding to minimum width `w`
(the sign counts toward the width and the padding goes after the sign). -/
def pyFormatZeroPad (w : Nat) (n : Int) : PyStr :=
  if n < 0 then '-' :: padLeft '0' (w - 1) (natToStr n.natAbs)
  else padLeft '0' w (natToStr n.toNat)

/-- Nonempty run of decimal digits with single underscores allowed between
digits, continued after a first digit was read (Python `int` literal tail). -/
def pyDigitsAux (acc : Nat) : PyStr → Option Nat
  | [] => some acc
  | c :: rest =>
    if c = '_' then
      match rest with
      | [] => none
      | c2 :: rest2 =>
        if c2.isDigit then pyDigitsAux (acc * 10 + digitVal c2) rest2 else none
    else if c.isDigit then pyDigitsAux (acc * 10 + digitVal c) rest
    else none

/-- The digit-string part of Python `int()`: nonempty decimal digits with
single underscores allowed between digits. -/
def pyDigits : PyStr → Option Nat
  | [] => none
  | c :: rest => if c.isDigit then pyDigitsAux (digitVal c) rest else none

def stripLeading (s : PyStr) : PyStr := s.dropWhile isPyWS

def stripTrailing (s : PyStr) : PyStr := (s.reverse.dropWhile isPyWS).reverse

/-- Python `str.strip()`. -/
def pyStrip (s : PyStr) : PyStr := stripTrailing (stripLeading s)

/-- Python `int(text)` in base 10: optional surrounding whitespace, optional
sign, then digits (with single underscores allowed between digits).
`none` models the `ValueError` raised on any other input. -/
def pyIntCore : PyStr → Option Int
  | [] => none
  | c :: rest =>
    if c = '+' then (pyDigits rest).map (fun n => (n : Int))
    else if c = '-' then (pyDigits rest).map (fun n => -(n : Int))
    else (pyDigits (c :: rest)).map (fun n => (n : Int))

def pyInt (s : PyStr) : Option Int := pyIntCore (pyStrip s)

/-- Python `str.split(sep)` for a single-character separator. -/
def pySplitChar (sep : Char) : PyStr → List PyStr
  | [] => [[]]
  | c :: rest =>
    let r := pySplitChar sep rest
    if c = sep then [] :: r
    else
      match r with
      | [] => [[c]]
      | h :: t => (c :: h) :: t

/-- `transcript_lib.parse_timestamp`: split on ':', convert the 2 or 3 parts
with `int()`, returning `none` (not an exception) when the shape or a
conversion fails. -/
def parse_timestamp (timestamp_str : PyStr) : Option Int :=
  match pySplitChar ':' timestamp_str with
  | [m, s] => do
    let mv ← pyInt m
    let sv ← pyInt s
    some (mv * 60 + sv)
  | [h, m, s] => do
    let hv ← pyInt h
    let mv ← pyInt m
    let sv ← pyInt s
    some (hv * 3600 + mv * 60 + sv)
  | _ => none

/-- Python `int(x)` on a float: truncation toward zero. -/
def pyTrunc (q : ℚ) : Int := q.num.tdiv (q.den : Int)

/-- Python `x % y` on floats: floored modulus, `x - y * floor(x / y)`. -/
def pyFMod (a b : ℚ) : ℚ := a - b * (⌊a / b⌋ : ℚ)

/-- `transcript_lib.format_timestamp`: `int()`-truncate, then render as
zero-padded `MM:SS` below one hour and `HH:MM:SS` otherwise. -/
def format_timestamp (seconds : ℚ) : PyStr :=
  let s := pyTrunc seconds
  if s < 3600 then
    pyFormatZeroPad 2 (s / 60) ++ ':' :: pyFormatZeroPad 2 (s % 60)
  else
    pyFormatZeroPad 2 (s / 3600) ++ ':' :: pyFormatZeroPad 2 ((s % 3600) / 60)
      ++ ':' :: pyFormatZeroPad 2 (s % 60)

/-- `transcript_segment.seconds_to_timestamp`: like `format_timestamp` but the
leading field is unpadded (Python width-1 format). -/
def seconds_to_timestamp (seconds : Int) : PyStr :=
  if seconds < 3600 then
    pyFormatZeroPad 1 (seconds / 60) ++ ':' :: pyFormatZeroPad 2 (seconds % 60)
  else
    pyFormatZeroPad 1 (seconds / 3600) ++ ':' :: pyFormatZeroPad 2 ((seconds % 3600) / 60)
      ++ ':' :: pyFormatZeroPad 2 (seconds % 60)

/-- Recogniser for the Python regex matching minutes:seconds under `re.match`
(anchored at the start): one or more ASCII digits, a colon, exactly two
digits, then the end of the string — where the dollar anchor also accepts a
single final newline. -/
def matchClock2 (s : PyStr) : Bool :=
  !(s.takeWhile Char.isDigit).isEmpty &&
    (match s.dropWhile Char.isDigit with
     | ':' :: a :: b :: t => a.isDigit && b.isDigit && (t.isEmpty || t == ['\n'])
     | _ => false)

/-- Recogniser for the hours:minutes:seconds regex, same conventions as
`matchClock2`. -/
def matchClock3 (s : PyStr) : Bool :=
  !(s.takeWhile Char.isDigit).isEmpty &&
    (match s.dropWhile Char.isDigit with
     | ':' :: a :: b :: ':' :: c :: d :: t =>
       a.isDigit && b.isDigit && c.isDigit && d.isDigit && (t.isEmpty || t == ['\n'])
     | _ => false)

def invalidTimestampMsg (t : PyStr) : PyStr :=
  pstr "Invalid timestamp format: " ++ t ++ pstr ". Expected MM:SS or HH:MM:SS"

/-- `transcript_segment.timestamp_to_seconds`: regex-check the shape, then
split and convert; any other shape raises `ValueError` naming the string.
The two inner `.error` branches are unreachable (a string matching the regex
always splits and converts). -/
def timestamp_to_seconds (timestamp : PyStr) : Except PyErr Int :=
  if matchClock2 timestamp then
    match pySplitChar ':' timestamp with
    | [m, s] =>
      match pyInt m, pyInt s with
      | some mv, some sv => .ok (mv * 60 + sv)
      | _, _ => .error (.valueError (pstr "unreachable"))
    | _ => .error (.valueError (pstr "unreachable"))
  else if matchClock3 timestamp then
    match pySplitChar ':' timestamp with
    | [h, m, s] =>
      match pyInt h, pyInt m, pyInt s with
      | some hv, some mv, some sv => .ok (hv * 3600 + mv * 60 + sv)
      | _, _, _ => .error (.valueError (pstr "unreachable"))
    | _ => .error (.valueError (pstr "unreachable"))
  else .error (.valueError (invalidTimestampMsg timestamp))

/-- One transcript segment (caption cue).  `duration` is `Option` because the
Python cue is a dict: `none` models a missing `"duration"` key, whose direct
subscript access raises `KeyError`. -/
structure Cue where
  text : PyStr
  start : ℚ
  duration : Option ℚ
deriving DecidableEq

/-- A chapter marker as consumed by `format_transcript_text`:
`start_time` in seconds plus the preformatted display string. -/
structure Chapter where
  title : PyStr
  start_time : ℚ
  start_time_formatted : PyStr
deriving DecidableEq

/-- The chapter line built when a chapter is emitted during reflow. -/
def chapterLine (ch : Chapter) : PyStr :=
  '\n' :: pstr "[CHAPTER] " ++ ch.start_time_formatted ++ pstr " - " ++ ch.title ++ ['\n']

/-- `minutes = int(current_start / 60)`, `seconds = int(current_start % 60)`
as computed when a window is closed or rendered. -/
def windowMinSec (start : ℚ) : Int × Int :=
  (pyTrunc (start / 60), pyTrunc (pyFMod start 60))

/-- Render one merged window as its `[MM:SS] text` output line. -/
def renderWindow (w : ℚ × PyStr) : PyStr :=
  let ms := windowMinSec w.1
  '[' :: pyFormatZeroPad 2 ms.1 ++ ':' :: pyFormatZeroPad 2 ms.2 ++ ']' :: ' ' :: w.2

/-- Loop state of `format_transcript_text`.  Closed windows are kept as
(start, text) pairs, from which the emitted `[MM:SS] text` strings are an
injective rendering; `pending` is the not-yet-consumed suffix of the sorted
chapter list (the source keeps an index `next_chapter_index` into that list,
which is the same single pass). -/
structure ReflowState where
  windows : List (ℚ × PyStr)
  curText : PyStr
  curStart : ℚ
  curDur : ℚ
  pending : List Chapter
  chapLines : List (Int × PyStr)

/-- The state update of one merge-loop iteration once the cue's duration `d`
has been read: either close the current window (collecting due chapters) or
accumulate the cue into it. -/
def reflowStepD (st : ReflowState) (seg : Cue) (d : ℚ) : ReflowState :=
  if st.curDur > 0 ∧ st.curDur + d > 10 then
    let ms := windowMinSec st.curStart
    let lineTime : Int := ms.1 * 60 + ms.2
    let emitted := st.pending.takeWhile (fun ch => ch.start_time ≤ (lineTime : ℚ))
    { windows := st.windows ++ [(st.curStart, st.curText)]
      curText := seg.text
      curStart := seg.start
      curDur := d
      pending := st.pending.dropWhile (fun ch => ch.start_time ≤ (lineTime : ℚ))
      chapLines := st.chapLines ++ emitted.map (fun ch => (lineTime, chapterLine ch)) }
  else
    { st with
      curText := if st.curText ≠ [] then st.curText ++ ' ' :: seg.text else seg.text
      curDur := st.curDur + d }

/-- One iteration of the merge loop of `format_transcript_text`.  The
`duration` key of the cue is read on every path of the source iteration, so
a missing key raises `KeyError` before the state changes. -/
def reflowStep (st : ReflowState) (seg : Cue) : Except PyErr ReflowState :=
  match seg.duration with
  | none => .error (.keyError (pstr "duration"))
  | some d => .ok (reflowStepD st seg d)

/-- Stable ascending sort by chapter start time
(`chapters.sort(key=lambda x: x['start_time'])`; Python's sort is stable, and
a stable ascending sort is unique, so insertion sort models it exactly). -/
def sortChaptersByStart (l : List Chapter) : List Chapter :=
  List.insertionSort (fun a b => a.start_time ≤ b.start_time) l

/-- Stable ascending sort of collected chapter lines by trigger time
(`chapter_lines.sort(key=lambda x: x[0])`). -/
def sortLinesByTime (l : List (Int × PyStr)) : List (Int × PyStr) :=
  List.insertionSort (fun a b => a.1 ≤ b.1) l

/-- The chapter-insertion block at the end of `format_transcript_text`.  For
each chapter line the inner while loop's condition is
`segment_index < len(merged_segments)` twice, so it drains all remaining
merged segments before appending the chapter line; the trailing loop drains
whatever is left. -/
def insertChapterLines (merged : List PyStr) (chapLines : List PyStr) : List PyStr :=
  let f := fun (acc : List PyStr × Nat) (cl : PyStr) =>
    (acc.1 ++ merged.drop acc.2 ++ [cl], merged.length)
  let r := chapLines.foldl f ([], 0)
  r.1 ++ merged.drop r.2

/-- Python `sep.join(parts)`. -/
def joinSep (sep : PyStr) : List PyStr → PyStr
  | [] => []
  | [x] => x
  | x :: y :: rest => x ++ sep ++ joinSep sep (y :: rest)

/-- The initial loop state: `current_text = ""“ is the empty string,
`current_start = transcript[0]["start"]`, `current_duration = 0`. -/
def initReflowState (first : Cue) (chs : List Chapter) : ReflowState :=
  { windows := [], curText := [], curStart := first.start, curDur := 0,
    pending := chs, chapLines := [] }

/-- The closed windows after the loop, with the final partial window appended
when its text is nonempty (`if current_text:`). -/
def finalWindows (st : ReflowState) : List (ℚ × PyStr) :=
  if st.curText ≠ [] then st.windows ++ [(st.curStart, st.curText)] else st.windows

/-- The sorted chapter list the merge loop works with: `[]` when `chapters`
is `None` or empty (falsy, skipping every chapter-related step), the sorted
list otherwise. -/
def truthyChapters (chapters : Option (List Chapter)) : List Chapter :=
  match chapters with
  | some l => if l.isEmpty then [] else sortChaptersByStart l
  | none => []

/-- The final rendering step of `format_transcript_text` from the loop's end
state: window lines, with the collected chapter lines appended through
`insertChapterLines` when chapters were supplied and any were collected. -/
def renderReflow (chs : List Chapter) (st : ReflowState) : PyStr :=
  let merged := (finalWindows st).map renderWindow
  if chs ≠ [] ∧ st.chapLines ≠ [] then
    joinSep ['\n'] (insertChapterLines merged ((sortLinesByTime st.chapLines).map Prod.snd))
  else joinSep ['\n'] merged

/-- `transcript_lib.format_transcript_text`.  An empty transcript returns ""
before anything else; a supplied truthy chapter list is sorted (in place — see
`format_transcript_text_chapters_after`); the merge loop then runs, and the
chapter lines collected at window closes are appended by
`insertChapterLines`. -/
def format_transcript_text (transcript : List Cue) (chapters : Option (List Chapter)) :
    Except PyErr PyStr :=
  match transcript with
  | [] => .ok []
  | first :: _ =>
    let chs := truthyChapters chapters
    (transcript.foldlM reflowStep (initReflowState first chs)).map (renderReflow chs)

/-- The in-place sorting effect of `chapters.sort(...)` on a truthy list. -/
def sortIfTruthy (chapters : Option (List Chapter)) : Option (List Chapter) :=
  match chapters with
  | none => none
  | some l => if l.isEmpty then some l else some (sortChaptersByStart l)

/-- The caller's chapter list as observable after `format_transcript_text`
returns: `list.sort` mutates the caller-owned list in place, and runs only
when the transcript is nonempty and the chapter list is truthy. -/
def format_transcript_text_chapters_after (transcript : List Cue)
    (chapters : Option (List Chapter)) : Option (List Chapter) :=
  match transcript with
  | [] => chapters
  | _ :: _ => sortIfTruthy chapters

/-- The merged (start, text) windows produced by the reflow loop of
`format_transcript_text`, final partial window included.  Chapters do not
influence the windows, so they are instantiated empty. -/
def reflowWindows (transcript : List Cue) : Except PyErr (List (ℚ × PyStr)) :=
  match transcript with
  | [] => .ok []
  | first :: _ =>
    (transcript.foldlM reflowStep (initReflowState first [])).map finalWindows

/-- The three interval-overlap tests of `find_transcript_segment` for one cue
against the window `[start_time, end_time]`: cue starts inside, cue ends
inside, cue spans the window (`item_end` is `start + item.get('duration', 0)`). -/
def cueOverlapCheck (start_time end_time : Int) (item : Cue) : Bool :=
  (decide ((start_time : ℚ) ≤ item.start) && decide (item.start ≤ (end_time : ℚ))) ||
    (decide ((start_time : ℚ) ≤ item.start + item.duration.getD 0) &&
      decide (item.start + item.duration.getD 0 ≤ (end_time : ℚ))) ||
    (decide (item.start ≤ (start_time : ℚ)) &&
      decide ((end_time : ℚ) ≤ item.start + item.duration.getD 0))

/-- `transcript_segment.find_transcript_segment`: keep every cue satisfying
one of the three interval-overlap tests against
`[max(0, target - context), target + context]`. -/
def find_transcript_segment (transcript : List Cue) (target_time : Int)
    (context_seconds : Int) : List Cue :=
  transcript.filter
    (cueOverlapCheck (max 0 (target_time - context_seconds)) (target_time + context_seconds))

/-- Does `hay` start with `needle`? -/
def startsWithStr : PyStr → PyStr → Bool
  | [], _ => true
  | _ :: _, [] => false
  | a :: as, b :: bs => a == b && startsWithStr as bs

/-- Python substring containment `needle in hay`. -/
def containsStr (needle : PyStr) : PyStr → Bool
  | [] => needle.isEmpty
  | c :: rest => startsWithStr needle (c :: rest) || containsStr needle rest

/-- Python `str.lower()` (ASCII). -/
def pyLower (s : PyStr) : PyStr := s.map Char.toLower

/-- No-argument Python `str.split()`: split on runs of whitespace, producing
no empty tokens; `cur` holds the current token reversed. -/
def pySplitWSAux (cur : PyStr) : PyStr → List PyStr
  | [] => if cur.isEmpty then [] else [cur.reverse]
  | c :: rest =>
    if isPyWS c then
      if cur.isEmpty then pySplitWSAux [] rest
      else cur.reverse :: pySplitWSAux [] rest
    else pySplitWSAux (c :: cur) rest

def pySplitWS (s : PyStr) : List PyStr := pySplitWSAux [] s

/-- `set(s.split())` of Python, as a duplicate-free word list (only
cardinality and membership of the set are ever used). -/
def wordSetOf (s : PyStr) : List PyStr := (pySplitWS s).dedup

/-- `len(claim_words.intersection(text_words))`. -/
def overlapCount (claimWords textWords : List PyStr) : Nat :=
  (claimWords.filter (fun w => textWords.contains w)).length

/-- The fuzzy overlap score of one cue:
`len(common_words) / len(claim_words)` as an exact rational. -/
def fuzzyScore (claimWords : List PyStr) (item : Cue) : ℚ :=
  (overlapCount claimWords (wordSetOf (pyLower item.text)) : ℚ) / (claimWords.length : ℚ)

/-- `best_match_score` as tracked by the fuzzy loop: the score of the best
match so far, 0 while there is none. -/
def bestScoreOf (acc : Option (Cue × ℚ)) : ℚ :=
  match acc with
  | some p => p.2
  | none => 0

/-- One iteration of the fuzzy-matching loop of `find_claim_in_transcript`:
the division raises `ZeroDivisionError` when the claim has no words, and the
best match is replaced only on a strictly higher score above 1/2. -/
def fuzzyStep (claimWords : List PyStr) (acc : Option (Cue × ℚ)) (item : Cue) :
    Except PyErr (Option (Cue × ℚ)) :=
  if claimWords.length = 0 then .error .zeroDivisionError
  else if fuzzyScore claimWords item > 1/2 ∧ fuzzyScore claimWords item > bestScoreOf acc then
    .ok (some (item, fuzzyScore claimWords item))
  else .ok acc

/-- The result dictionary of `find_claim_in_transcript`. -/
structure ClaimMatch where
  timestamp : PyStr
  timestamp_seconds : Int
  context : PyStr
  match_score : Option ℚ
deriving DecidableEq

def matchResultOf (item : Cue) (score : Option ℚ) : ClaimMatch :=
  { timestamp := seconds_to_timestamp (pyTrunc item.start)
    timestamp_seconds := pyTrunc item.start
    context := item.text
    match_score := score }

/-- The exact-containment scan of `find_claim_in_transcript`: the first cue
whose lower-cased text contains the normalized claim. -/
def exactPhase (transcript : List Cue) (nc : PyStr) : Option Cue :=
  transcript.find? (fun item => containsStr nc (pyLower item.text))

/-- The fuzzy fallback of `find_claim_in_transcript`: run the overlap loop
and package the best match (with its score) if any. -/
def fuzzyPhase (transcript : List Cue) (claimWords : List PyStr) :
    Except PyErr (Option ClaimMatch) :=
  match transcript.foldlM (fuzzyStep claimWords) none with
  | .error e => .error e
  | .ok none => .ok none
  | .ok (some p) => .ok (some (matchResultOf p.1 (some p.2)))

/-- `transcript_segment.find_claim_in_transcript`: exact lower-cased substring
scan first; if that fails and fuzzy matching is enabled, the word-overlap
loop; `.ok none` models returning `None`. -/
def find_claim_in_transcript (transcript : List Cue) (claim : PyStr)
    (fuzzy_match : Bool) : Except PyErr (Option ClaimMatch) :=
  match exactPhase transcript (pyStrip (pyLower claim)) with
  | some item => .ok (some (matchResultOf item none))
  | none =>
    if fuzzy_match then fuzzyPhase transcript (wordSetOf (pyStrip (pyLower claim)))
    else .ok none

/-- Specification-side description of the fuzzy fallback: the strictly
highest score over the transcript, accepted only above 1/2, resolved to the
earliest cue attaining it. -/
def fuzzyBestSpec (claimWords : List PyStr) (transcript : List Cue) : Option (Cue × ℚ) :=
  if (transcript.map (fuzzyScore claimWords)).foldl max 0 > 1/2 then
    (transcript.map (fun c => (c, fuzzyScore claimWords c))).find?
      (fun p => decide (p.2 = (transcript.map (fuzzyScore claimWords)).foldl max 0))
  else none

/-- Splits a leading capitalised word (uppercase letter followed by letters)
off a string, returning the word and the remainder. -/
def capWordSplit (s : PyStr) : Option (PyStr × PyStr) :=
  match s with
  | [] => none
  | c :: rest =>
    if c.isUpper then some (c :: rest.takeWhile Char.isAlpha, rest.dropWhile Char.isAlpha)
    else none

/-- Modelled from the spec: pattern 1 of the Speaker Attribution Engine —
caller-supplied name hints, each matched as the escaped name followed by a
colon, anchored at the start of the cue text. -/
def matchHint (hints : List PyStr) (text : PyStr) : Option (PyStr × PyStr) :=
  hints.findSome? (fun name =>
    if startsWithStr (name ++ [':']) text then
      some (name, pyStrip (text.drop (name.length + 1)))
    else none)

/-- Modelled from the spec: pattern 2 — one or two capitalised words followed
by a colon at line start; the matched prefix is stripped and the remaining
text trimmed. -/
def matchCapColon (text : PyStr) : Option (PyStr × PyStr) :=
  match capWordSplit text with
  | none => none
  | some (w1, rest1) =>
    match rest1 with
    | ':' :: rest => some (w1, pyStrip rest)
    | ' ' :: rest2 =>
      match capWordSplit rest2 with
      | some (w2, ':' :: rest) => some (w1 ++ ' ' :: w2, pyStrip rest)
      | _ => none
    | _ => none

/-- Modelled from the spec: patterns 3 and 4 — a capitalised name enclosed in
square brackets or parentheses at line start. -/
def matchBracketed (openC closeC : Char) (text : PyStr) : Option (PyStr × PyStr) :=
  match text with
  | [] => none
  | c :: rest =>
    if c = openC then
      match capWordSplit rest with
      | some (w, c2 :: rest2) => if c2 = closeC then some (w, pyStrip rest2) else none
      | _ => none
    else none

/-- Modelled from the spec: pattern 5 — literal `Speaker` or `Speaker N`
followed by a colon. -/
def matchSpeakerN (text : PyStr) : Option (PyStr × PyStr) :=
  if startsWithStr (pstr "Speaker") text then
    match text.drop 7 with
    | ':' :: r => some (pstr "Speaker", pyStrip r)
    | ' ' :: r =>
      let num := r.takeWhile Char.isDigit
      if num.isEmpty then none
      else
        match r.dropWhile Char.isDigit with
        | ':' :: r2 => some (pstr "Speaker " ++ num, pyStrip r2)
        | _ => none
    | _ => none
  else none

def roleWords : List PyStr :=
  [pstr "Interviewer", pstr "Interviewee", pstr "Host", pstr "Guest",
   pstr "Moderator", pstr "Participant"]

/-- Modelled from the spec: pattern 6 — a fixed role word (optionally
`Participant N`) followed by a colon. -/
def matchRole (text : PyStr) : Option (PyStr × PyStr) :=
  roleWords.findSome? (fun w =>
    if startsWithStr w text then
      match text.drop w.length with
      | ':' :: r => some (w, pyStrip r)
      | ' ' :: r =>
        if w = pstr "Participant" then
          let num := r.takeWhile Char.isDigit
          if num.isEmpty then none
          else
            match r.dropWhile Char.isDigit with
            | ':' :: r2 => some (w ++ ' ' :: num, pyStrip r2)
            | _ => none
        else none
      | _ => none
    else none)

/-- Modelled from the spec: the ordered pattern cascade of the Speaker
Attribution Engine (spec 4.3), first match wins, at most one category
applied per cue. -/
def extractSpeaker (hints : List PyStr) (text : PyStr) : Option (PyStr × PyStr) :=
  (matchHint hints text).orElse (fun _ =>
    (matchCapColon text).orElse (fun _ =>
      (matchBracketed '[' ']' text).orElse (fun _ =>
        (matchBracketed '(' ')' text).orElse (fun _ =>
          (matchSpeakerN text).orElse (fun _ => matchRole text)))))

/-- A cue after speaker attribution: possibly shortened text and an optional
speaker label. -/
structure LabeledCue where
  text : PyStr
  start : ℚ
  duration : Option ℚ
  speaker : Option PyStr
deriving DecidableEq

/-- Append an occurrence time to a speaker's list, creating the entry on
first sight (insertion-ordered association list, like a Python dict). -/
def addOccurrence (speakers : List (PyStr × List ℚ)) (name : PyStr) (t : ℚ) :
    List (PyStr × List ℚ) :=
  match speakers with
  | [] => [(name, [t])]
  | (n, ts) :: rest =>
    if n = name then (n, ts ++ [t]) :: rest else (n, ts) :: addOccurrence rest name t

/-- Modelled from the spec: `identify_speakers` — the tests import it from
`transcript_lib`, but the version of `transcript_lib.py` defining it is not
part of src/, so the function is reconstructed from spec 4.3: scan each
cue's text through the pattern cascade; on a match, record the speaker,
strip the matched prefix from the text, and append the cue's start to that
speaker's occurrence list; on no match pass the cue through unchanged. -/
def identify_speakers (transcript : List Cue) (hints : List PyStr) :
    List LabeledCue × List (PyStr × List ℚ) :=
  transcript.foldl
    (fun (acc : List LabeledCue × List (PyStr × List ℚ)) cue =>
      match extractSpeaker hints cue.text with
      | some (name, newText) =>
        (acc.1 ++ [{ text := newText, start := cue.start, duration := cue.duration,
                     speaker := some name }],
         addOccurrence acc.2 name cue.start)
      | none =>
        (acc.1 ++ [{ text := cue.text, start := cue.start, duration := cue.duration,
                     speaker := none }], acc.2))
    ([], [])

deriving instance DecidableEq for Except

/-! ### Helper lemmas: digits, rendering and parsing of decimal numbers -/

/-- Horner accumulation of decimal digit characters, the common core of the
digit-parsing functions. -/
def digitsFold (acc : Nat) (s : PyStr) : Nat :=
  s.foldl (fun a c => a * 10 + digitVal c) acc

theorem digitVal_digitChar {d : Nat} (h : d < 10) : digitVal (digitChar d) = d := by
  interval_cases d <;> rfl

theorem isDigit_digitChar (d : Nat) : (digitChar d).isDigit = true := by
  rcases d with _ | _ | _ | _ | _ | _ | _ | _ | _ | _ <;> rfl

theorem isDigit_ne {c : Char} (h : c.isDigit = true) {d : Char} (hd : d.isDigit = false) :
    c ≠ d := by
  rintro rfl
  rw [h] at hd
  cases hd

theorem not_isPyWS_of_isDigit {c : Char} (h : c.isDigit = true) : isPyWS c = false := by
  by_contra hw
  rw [Bool.not_eq_false] at hw
  unfold isPyWS at hw
  simp only [Bool.or_eq_true, decide_eq_true_eq] at hw
  rcases hw with ((((h1 | h1) | h1) | h1) | h1) | h1 <;> subst h1 <;> simp at h

theorem digitsFold_append (acc : Nat) (l1 l2 : PyStr) :
    digitsFold acc (l1 ++ l2) = digitsFold (digitsFold acc l1) l2 :=
  List.foldl_append _ _ _ _

theorem natToStrAux_digits :
    ∀ fuel n, ∀ c ∈ natToStrAux fuel n, c.isDigit = true := by
  intro fuel
  induction fuel with
  | zero => intro n c hc; simp [natToStrAux] at hc
  | succ f ih =>
    intro n c hc
    cases n with
    | zero => simp [natToStrAux] at hc
    | succ m =>
      unfold natToStrAux at hc
      rcases List.mem_append.mp hc with h | h
      · exact ih _ _ h
      · rw [List.mem_singleton.mp h]; exact isDigit_digitChar _

theorem natToStrAux_val :
    ∀ fuel n acc, n ≤ fuel →
      digitsFold acc (natToStrAux fuel n) = acc * 10 ^ (natToStrAux fuel n).length + n := by
  intro fuel
  induction fuel with
  | zero =>
    intro n acc hn
    interval_cases n
    simp [natToStrAux, digitsFold]
  | succ f ih =>
    intro n acc hn
    cases n with
    | zero => simp [natToStrAux, digitsFold]
    | succ m =>
      have hdiv : (m + 1) / 10 ≤ f := by
        have := Nat.div_lt_self (Nat.succ_pos m) (by norm_num : 1 < 10)
        omega
      unfold natToStrAux
      rw [digitsFold_append, ih _ _ hdiv]
      have hd : digitVal (digitChar ((m + 1) % 10)) = (m + 1) % 10 :=
        digitVal_digitChar (Nat.mod_lt _ (by norm_num))
      simp only [digitsFold, List.foldl_cons, List.foldl_nil, List.length_append,
        List.length_singleton, hd]
      rw [pow_succ]
      have := Nat.div_add_mod (m + 1) 10
      ring_nf
      omega

theorem natToStrAux_length :
    ∀ fuel n k, n < 10 ^ k → (natToStrAux fuel n).length ≤ k := by
  intro fuel
  induction fuel with
  | zero => intro n k _; simp [natToStrAux]
  | succ f ih =>
    intro n k hk
    cases n with
    | zero => simp [natToStrAux]
    | succ m =>
      cases k with
      | zero => simp at hk
      | succ k' =>
        have hdiv : (m + 1) / 10 < 10 ^ k' := by
          rw [Nat.div_lt_iff_lt_mul (by norm_num : 0 < 10)]
          calc m + 1 < 10 ^ (k' + 1) := hk
            _ = 10 ^ k' * 10 := by rw [pow_succ]
        unfold natToStrAux
        rw [List.length_append, List.length_singleton]
        have := ih ((m + 1) / 10) k' hdiv
        omega

theorem natToStr_digits (n : Nat) : ∀ c ∈ natToStr n, c.isDigit = true := by
  unfold natToStr
  split
  · intro c hc
    rw [List.mem_singleton.mp hc]; rfl
  · exact natToStrAux_digits n n

theorem natToStr_ne_nil (n : Nat) : natToStr n ≠ [] := by
  unfold natToStr
  split
  · simp
  · rename_i h
    rcases Nat.exists_eq_succ_of_ne_zero h with ⟨m, rfl⟩
    unfold natToStrAux
    simp

theorem digitsFold_natToStr (n : Nat) : digitsFold 0 (natToStr n) = n := by
  unfold natToStr
  split
  · rename_i h; subst h; rfl
  · rw [natToStrAux_val n n 0 le_rfl]; ring

theorem natToStr_length_le {n k : Nat} (h : n < 10 ^ k) (hk : 1 ≤ k) :
    (natToStr n).length ≤ k := by
  unfold natToStr
  split
  · simpa using hk
  · exact natToStrAux_length n n k h

theorem padLeft_length {c : Char} {w : Nat} {s : PyStr} (h : s.length ≤ w) :
    (padLeft c w s).length = w := by
  unfold padLeft
  rw [List.length_append, List.length_replicate]
  omega

theorem padLeft_zero_digits {w : Nat} {s : PyStr} (h : ∀ c ∈ s, c.isDigit = true) :
    ∀ c ∈ padLeft '0' w s, c.isDigit = true := by
  intro c hc
  rcases List.mem_append.mp hc with h0 | h0
  · rw [List.eq_of_mem_replicate h0]; decide
  · exact h c h0

theorem padLeft_ne_nil {c : Char} {w : Nat} {s : PyStr} (h : s ≠ []) :
    padLeft c w s ≠ [] := by
  unfold padLeft
  simp [h]

theorem digitsFold_replicate_zero (k : Nat) : digitsFold 0 (List.replicate k '0') = 0 := by
  induction k with
  | zero => rfl
  | succ n ih => simpa [digitsFold, List.replicate_succ, digitVal] using ih

theorem digitsFold_padLeft_zero (w : Nat) (s : PyStr) :
    digitsFold 0 (padLeft '0' w s) = digitsFold 0 s := by
  unfold padLeft
  rw [digitsFold_append, digitsFold_replicate_zero]

theorem pyDigitsAux_all_digits {s : PyStr} (h : ∀ c ∈ s, c.isDigit = true) (acc : Nat) :
    pyDigitsAux acc s = some (digitsFold acc s) := by
  induction s generalizing acc with
  | nil => rfl
  | cons c t ih =>
    have hc : c.isDigit = true := h c (List.mem_cons_self c t)
    have hne : ¬(c = '_') := isDigit_ne hc (by decide)
    unfold pyDigitsAux
    rw [if_neg hne, if_pos hc, ih (fun x hx => h x (List.mem_cons_of_mem _ hx))]
    rfl

theorem pyDigits_all_digits {s : PyStr} (hne : s ≠ []) (h : ∀ c ∈ s, c.isDigit = true) :
    pyDigits s = some (digitsFold 0 s) := by
  match s, hne with
  | c :: t, _ =>
    have hc : c.isDigit = true := h c (List.mem_cons_self c t)
    rw [show pyDigits (c :: t) = if c.isDigit then pyDigitsAux (digitVal c) t else none from rfl,
      if_pos hc, pyDigitsAux_all_digits (fun x hx => h x (List.mem_cons_of_mem _ hx))]
    simp [digitsFold]

theorem stripLeading_all_digits {s : PyStr} (h : ∀ c ∈ s, c.isDigit = true) :
    stripLeading s = s := by
  unfold stripLeading
  cases s with
  | nil => rfl
  | cons c t =>
    rw [List.dropWhile_cons, not_isPyWS_of_isDigit (h c (List.mem_cons_self c t))]
    simp

theorem stripTrailing_all_digits {s : PyStr} (h : ∀ c ∈ s, c.isDigit = true) :
    stripTrailing s = s := by
  unfold stripTrailing
  have hrev : ∀ c ∈ s.reverse, c.isDigit = true := fun c hc => h c (List.mem_reverse.mp hc)
  cases hr : s.reverse with
  | nil =>
    have : s = [] := by simpa using congrArg List.reverse hr
    simp [this]
  | cons c t =>
    rw [List.dropWhile_cons, not_isPyWS_of_isDigit (by
      apply hrev; rw [hr]; exact List.mem_cons_self c t)]
    simp [← hr]

theorem pyStrip_all_digits {s : PyStr} (h : ∀ c ∈ s, c.isDigit = true) :
    pyStrip s = s := by
  unfold pyStrip
  rw [stripLeading_all_digits h, stripTrailing_all_digits h]

theorem pyInt_all_digits {s : PyStr} (hne : s ≠ []) (h : ∀ c ∈ s, c.isDigit = true) :
    pyInt s = some ((digitsFold 0 s : Nat) : Int) := by
  match s, hne with
  | c :: t, _ =>
    have hc : c.isDigit = true := h c (List.mem_cons_self c t)
    unfold pyInt
    rw [pyStrip_all_digits h]
    simp only [pyIntCore]
    rw [if_neg (isDigit_ne hc (show ('+').isDigit = false by decide)),
      if_neg (isDigit_ne hc (show ('-').isDigit = false by decide)),
      pyDigits_all_digits (List.cons_ne_nil c t) h]
    rfl

theorem pySplitChar_of_no_sep {sep : Char} {s : PyStr} (h : ∀ c ∈ s, c ≠ sep) :
    pySplitChar sep s = [s] := by
  induction s with
  | nil => rfl
  | cons c t ih =>
    have ht := ih (fun x hx => h x (List.mem_cons_of_mem _ hx))
    simp only [pySplitChar]
    rw [if_neg (h c (List.mem_cons_self c t)), ht]

theorem pySplitChar_append_sep {sep : Char} {a rest : PyStr} (h : ∀ c ∈ a, c ≠ sep) :
    pySplitChar sep (a ++ sep :: rest) = a :: pySplitChar sep rest := by
  induction a with
  | nil =>
    show pySplitChar sep (sep :: rest) = [] :: pySplitChar sep rest
    simp [pySplitChar]
  | cons c t ih =>
    have hct := ih (fun x hx => h x (List.mem_cons_of_mem _ hx))
    show pySplitChar sep (c :: (t ++ sep :: rest)) = (c :: t) :: pySplitChar sep rest
    simp only [pySplitChar]
    rw [if_neg (h c (List.mem_cons_self c t)), hct]

theorem takeWhile_append_of_all {p : Char → Bool} {a : PyStr} {y : Char} {rest : PyStr}
    (ha : ∀ c ∈ a, p c = true) (hy : p y = false) :
    (a ++ y :: rest).takeWhile p = a := by
  induction a with
  | nil => simp [List.takeWhile_cons, hy]
  | cons c t ih =>
    rw [List.cons_append, List.takeWhile_cons, ha c (List.mem_cons_self c t)]
    simp [ih (fun x hx => ha x (List.mem_cons_of_mem _ hx))]

theorem dropWhile_append_of_all {p : Char → Bool} {a : PyStr} {y : Char} {rest : PyStr}
    (ha : ∀ c ∈ a, p c = true) (hy : p y = false) :
    (a ++ y :: rest).dropWhile p = y :: rest := by
  induction a with
  | nil => simp [List.dropWhile_cons, hy]
  | cons c t ih =>
    rw [List.cons_append, List.dropWhile_cons, ha c (List.mem_cons_self c t)]
    simpa using ih (fun x hx => ha x (List.mem_cons_of_mem _ hx))

theorem pyFormatZeroPad_nonneg {w : Nat} {n : Int} (h : 0 ≤ n) :
    pyFormatZeroPad w n = padLeft '0' w (natToStr n.toNat) := by
  unfold pyFormatZeroPad
  rw [if_neg (not_lt.mpr h)]

theorem pyFormatZeroPad_digits {w : Nat} {n : Int} (h : 0 ≤ n) :
    ∀ c ∈ pyFormatZeroPad w n, c.isDigit = true := by
  rw [pyFormatZeroPad_nonneg h]
  exact padLeft_zero_digits (natToStr_digits _)

theorem pyFormatZeroPad_ne_nil {w : Nat} {n : Int} (h : 0 ≤ n) :
    pyFormatZeroPad w n ≠ [] := by
  rw [pyFormatZeroPad_nonneg h]
  exact padLeft_ne_nil (natToStr_ne_nil _)

theorem pyInt_pyFormatZeroPad {w : Nat} {n : Int} (h : 0 ≤ n) :
    pyInt (pyFormatZeroPad w n) = some n := by
  rw [pyFormatZeroPad_nonneg h,
    pyInt_all_digits (padLeft_ne_nil (natToStr_ne_nil _)) (padLeft_zero_digits (natToStr_digits _)),
    digitsFold_padLeft_zero, digitsFold_natToStr]
  rw [Int.toNat_of_nonneg h]

theorem pyFormatZeroPad_two_length {n : Int} (h0 : 0 ≤ n) (h : n < 100) :
    (pyFormatZeroPad 2 n).length = 2 := by
  rw [pyFormatZeroPad_nonneg h0]
  apply padLeft_length
  exact natToStr_length_le (by omega) (by norm_num)

theorem not_colon_of_digits {a : PyStr} (hda : ∀ c ∈ a, c.isDigit = true) :
    ∀ c ∈ a, c ≠ ':' :=
  fun c hc => isDigit_ne (hda c hc) (by decide)

theorem parse_timestamp_pair {a b : PyStr} {x y : Int}
    (hda : ∀ c ∈ a, c.isDigit = true) (hdb : ∀ c ∈ b, c.isDigit = true)
    (hx : pyInt a = some x) (hy : pyInt b = some y) :
    parse_timestamp (a ++ ':' :: b) = some (x * 60 + y) := by
  have hsplit : pySplitChar ':' (a ++ ':' :: b) = [a, b] := by
    rw [pySplitChar_append_sep (not_colon_of_digits hda),
      pySplitChar_of_no_sep (not_colon_of_digits hdb)]
  unfold parse_timestamp
  rw [hsplit]
  show (do
    let mv ← pyInt a
    let sv ← pyInt b
    some (mv * 60 + sv)) = some (x * 60 + y)
  rw [hx, hy]
  rfl

theorem parse_timestamp_triple {a b c : PyStr} {x y z : Int}
    (hda : ∀ u ∈ a, u.isDigit = true) (hdb : ∀ u ∈ b, u.isDigit = true)
    (hdc : ∀ u ∈ c, u.isDigit = true)
    (hx : pyInt a = some x) (hy : pyInt b = some y) (hz : pyInt c = some z) :
    parse_timestamp (a ++ ':' :: (b ++ ':' :: c)) = some (x * 3600 + y * 60 + z) := by
  have hsplit : pySplitChar ':' (a ++ ':' :: (b ++ ':' :: c)) = [a, b, c] := by
    rw [pySplitChar_append_sep (not_colon_of_digits hda),
      pySplitChar_append_sep (not_colon_of_digits hdb),
      pySplitChar_of_no_sep (not_colon_of_digits hdc)]
  unfold parse_timestamp
  rw [hsplit]
  show (do
    let hv ← pyInt a
    let mv ← pyInt b
    let sv ← pyInt c
    some (hv * 3600 + mv * 60 + sv)) = some (x * 3600 + y * 60 + z)
  rw [hx, hy, hz]
  rfl

theorem pyTrunc_natCast (n : ℕ) : pyTrunc (n : ℚ) = (n : ℤ) := by
  unfold pyTrunc
  rw [Rat.num_natCast, Rat.den_natCast]
  simp [Int.tdiv_one]

theorem isEmpty_false_of_ne_nil {a : PyStr} (ha : a ≠ []) : a.isEmpty = false := by
  cases a with
  | nil => exact absurd rfl ha
  | cons c t => rfl

theorem matchClock2_pair {a : PyStr} {p q : Char} (ha : a ≠ [])
    (hda : ∀ c ∈ a, c.isDigit = true) (hp : p.isDigit = true) (hq : q.isDigit = true) :
    matchClock2 (a ++ ':' :: p :: q :: []) = true := by
  unfold matchClock2
  rw [takeWhile_append_of_all hda (by decide), dropWhile_append_of_all hda (by decide)]
  show (!a.isEmpty && (p.isDigit && q.isDigit && (List.isEmpty [] || [] == ['\n']))) = true
  rw [hp, hq, isEmpty_false_of_ne_nil ha]
  rfl

theorem matchClock2_of_triple {a : PyStr} {p q u v : Char}
    (hda : ∀ c ∈ a, c.isDigit = true) :
    matchClock2 (a ++ ':' :: p :: q :: ':' :: u :: v :: []) = false := by
  unfold matchClock2
  rw [takeWhile_append_of_all hda (by decide), dropWhile_append_of_all hda (by decide)]
  show (!a.isEmpty &&
    (p.isDigit && q.isDigit && (List.isEmpty (':' :: u :: v :: []) || (':' :: u :: v :: []) == ['\n']))) = false
  have h2 : ((':' :: u :: v :: []) == ['\n']) = false := rfl
  rw [h2]
  simp

theorem matchClock3_triple {a : PyStr} {p q u v : Char} (ha : a ≠ [])
    (hda : ∀ c ∈ a, c.isDigit = true) (hp : p.isDigit = true) (hq : q.isDigit = true)
    (hu : u.isDigit = true) (hv : v.isDigit = true) :
    matchClock3 (a ++ ':' :: p :: q :: ':' :: u :: v :: []) = true := by
  unfold matchClock3
  rw [takeWhile_append_of_all hda (by decide), dropWhile_append_of_all hda (by decide)]
  show (!a.isEmpty &&
    (p.isDigit && q.isDigit && u.isDigit && v.isDigit && (List.isEmpty [] || [] == ['\n']))) = true
  rw [hp, hq, hu, hv, isEmpty_false_of_ne_nil ha]
  rfl

theorem timestamp_to_seconds_pair {a : PyStr} {p q : Char} {x y : Int}
    (ha : a ≠ []) (hda : ∀ c ∈ a, c.isDigit = true)
    (hp : p.isDigit = true) (hq : q.isDigit = true)
    (hx : pyInt a = some x) (hy : pyInt (p :: q :: []) = some y) :
    timestamp_to_seconds (a ++ ':' :: p :: q :: []) = .ok (x * 60 + y) := by
  have hsplit : pySplitChar ':' (a ++ ':' :: p :: q :: []) = [a, p :: q :: []] := by
    rw [pySplitChar_append_sep (not_colon_of_digits hda),
      pySplitChar_of_no_sep (not_colon_of_digits (by
        intro c hc
        rcases List.mem_cons.mp hc with h | h
        · subst h; exact hp
        · rw [List.mem_singleton.mp h]; exact hq))]
  unfold timestamp_to_seconds
  rw [matchClock2_pair ha hda hp hq]
  rw [if_pos rfl, hsplit]
  show (match pyInt a, pyInt (p :: q :: []) with
    | some mv, some sv => Except.ok (mv * 60 + sv)
    | _, _ => Except.error (PyErr.valueError (pstr "unreachable"))) = Except.ok (x * 60 + y)
  rw [hx, hy]

theorem timestamp_to_seconds_triple {a : PyStr} {p q u v : Char} {x y z : Int}
    (ha : a ≠ []) (hda : ∀ c ∈ a, c.isDigit = true)
    (hp : p.isDigit = true) (hq : q.isDigit = true)
    (hu : u.isDigit = true) (hv : v.isDigit = true)
    (hx : pyInt a = some x) (hy : pyInt (p :: q :: []) = some y)
    (hz : pyInt (u :: v :: []) = some z) :
    timestamp_to_seconds (a ++ ':' :: p :: q :: ':' :: u :: v :: []) = .ok (x * 3600 + y * 60 + z) := by
  have hdpq : ∀ c ∈ p :: q :: [], c.isDigit = true := by
    intro c hc
    rcases List.mem_cons.mp hc with h | h
    · subst h; exact hp
    · rw [List.mem_singleton.mp h]; exact hq
  have hduv : ∀ c ∈ u :: v :: [], c.isDigit = true := by
    intro c hc
    rcases List.mem_cons.mp hc with h | h
    · subst h; exact hu
    · rw [List.mem_singleton.mp h]; exact hv
  have hsplit : pySplitChar ':' (a ++ ':' :: p :: q :: ':' :: u :: v :: []) = [a, p :: q :: [], u :: v :: []] := by
    have : a ++ ':' :: p :: q :: ':' :: u :: v :: [] = a ++ ':' :: ((p :: q :: []) ++ ':' :: u :: v :: []) := by simp
    rw [this, pySplitChar_append_sep (not_colon_of_digits hda),
      pySplitChar_append_sep (not_colon_of_digits hdpq),
      pySplitChar_of_no_sep (not_colon_of_digits hduv)]
  unfold timestamp_to_seconds
  rw [matchClock2_of_triple hda]
  rw [if_neg (by simp), matchClock3_triple ha hda hp hq hu hv, if_pos rfl, hsplit]
  show (match pyInt a, pyInt (p :: q :: []), pyInt (u :: v :: []) with
    | some hv, some mv, some sv => Except.ok (hv * 3600 + mv * 60 + sv)
    | _, _, _ => Except.error (PyErr.valueError (pstr "unreachable"))) = Except.ok (x * 3600 + y * 60 + z)
  rw [hx, hy, hz]

/-- C2: parsing the formatted clock string yields the seconds value back, for
both codec pairs. -/
theorem c2_timestamp_round_trip (s : ℕ) :
    parse_timestamp (format_timestamp (s : ℚ)) = some (s : ℤ) ∧
    timestamp_to_seconds (seconds_to_timestamp (s : ℤ)) = .ok (s : ℤ) := by
  have hs0 : (0 : ℤ) ≤ (s : ℤ) := Int.natCast_nonneg s
  have h60 : (0 : ℤ) ≤ (s : ℤ) / 60 := Int.ediv_nonneg hs0 (by norm_num)
  have hm60 : (0 : ℤ) ≤ (s : ℤ) % 60 := Int.emod_nonneg _ (by norm_num)
  have hm60' : (s : ℤ) % 60 < 60 := Int.emod_lt_of_pos _ (by norm_num)
  have h3600 : (0 : ℤ) ≤ (s : ℤ) / 3600 := Int.ediv_nonneg hs0 (by norm_num)
  have hmid : (0 : ℤ) ≤ (s : ℤ) % 3600 / 60 := by
    apply Int.ediv_nonneg (Int.emod_nonneg _ (by norm_num)) (by norm_num)
  have hmid' : (s : ℤ) % 3600 / 60 < 100 := by
    have := Int.emod_lt_of_pos (s : ℤ) (show (0:ℤ) < 3600 by norm_num)
    omega
  constructor
  · simp only [format_timestamp]
    rw [pyTrunc_natCast]
    by_cases hlt : (s : ℤ) < 3600
    · rw [if_pos hlt]
      rw [parse_timestamp_pair (pyFormatZeroPad_digits h60) (pyFormatZeroPad_digits hm60)
        (pyInt_pyFormatZeroPad h60) (pyInt_pyFormatZeroPad hm60)]
      congr 1
      omega
    · rw [if_neg hlt]
      rw [List.append_assoc, List.cons_append]
      rw [parse_timestamp_triple (pyFormatZeroPad_digits h3600) (pyFormatZeroPad_digits hmid)
        (pyFormatZeroPad_digits hm60) (pyInt_pyFormatZeroPad h3600) (pyInt_pyFormatZeroPad hmid)
        (pyInt_pyFormatZeroPad hm60)]
      congr 1
      omega
  · unfold seconds_to_timestamp
    by_cases hlt : (s : ℤ) < 3600
    · rw [if_pos hlt]
      obtain ⟨p, q, hpq⟩ := List.length_eq_two.mp (pyFormatZeroPad_two_length hm60 (by omega))
      rw [hpq]
      have hp : p.isDigit = true := pyFormatZeroPad_digits hm60 p (by rw [hpq]; exact List.mem_cons_self p [q])
      have hq : q.isDigit = true := pyFormatZeroPad_digits hm60 q (by
        rw [hpq]; exact List.mem_cons_of_mem _ (List.mem_singleton.mpr rfl))
      have hy : pyInt (p :: q :: []) = some ((s:ℤ) % 60) := by
        rw [← hpq]; exact pyInt_pyFormatZeroPad hm60
      rw [timestamp_to_seconds_pair (pyFormatZeroPad_ne_nil h60) (pyFormatZeroPad_digits h60)
        hp hq (pyInt_pyFormatZeroPad h60) hy]
      congr 1
      omega
    · rw [if_neg hlt]
      obtain ⟨p, q, hpq⟩ := List.length_eq_two.mp (pyFormatZeroPad_two_length hmid hmid')
      obtain ⟨u, v, huv⟩ := List.length_eq_two.mp (pyFormatZeroPad_two_length hm60 (by omega))
      rw [hpq, huv]
      have hp : p.isDigit = true := pyFormatZeroPad_digits hmid p (by rw [hpq]; exact List.mem_cons_self p [q])
      have hq : q.isDigit = true := pyFormatZeroPad_digits hmid q (by
        rw [hpq]; exact List.mem_cons_of_mem _ (List.mem_singleton.mpr rfl))
      have hu : u.isDigit = true := pyFormatZeroPad_digits hm60 u (by rw [huv]; exact List.mem_cons_self u [v])
      have hv : v.isDigit = true := pyFormatZeroPad_digits hm60 v (by
        rw [huv]; exact List.mem_cons_of_mem _ (List.mem_singleton.mpr rfl))
      have hy : pyInt (p :: q :: []) = some ((s:ℤ) % 3600 / 60) := by
        rw [← hpq]; exact pyInt_pyFormatZeroPad hmid
      have hz : pyInt (u :: v :: []) = some ((s:ℤ) % 60) := by
        rw [← huv]; exact pyInt_pyFormatZeroPad hm60
      rw [List.append_assoc]
      simp only [List.cons_append, List.nil_append]
      rw [timestamp_to_seconds_triple (pyFormatZeroPad_ne_nil h3600) (pyFormatZeroPad_digits h3600)
        hp hq hu hv (pyInt_pyFormatZeroPad h3600) hy hz]
      congr 1
      omega

/-- C1: the spec says chapter lines are interleaved immediately before the
window whose floored start they precede; the code instead appends every
collected chapter line after all window lines, because the inner while loop
of the insertion block repeats the same bound test twice and so drains all
merged segments before the first chapter line.  Here the chapter triggers at
the first window (start 0), yet the output is both windows followed by the
chapter line. -/
theorem c1_chapter_lines_trail_windows :
    format_transcript_text
      [{ text := pstr "a", start := 0, duration := some 6 },
       { text := pstr "b", start := 6, duration := some 6 }]
      (some [{ title := pstr "Intro", start_time := 0, start_time_formatted := pstr "00:00" }])
      = .ok (pstr "[00:00] a\n[00:06] b\n\n[CHAPTER] 00:00 - Intro\n") := by
  with_unfolding_all decide

/-- C9: speaker attribution on the two spec examples: the leading label is
stripped, only the leading label, and the start time is recorded under the
speaker. -/
theorem c9_speaker_stripping :
    identify_speakers
      [{ text := pstr "John: Hello", start := 0, duration := some (7/2) },
       { text := pstr "Sarah: Thanks, John.", start := 1, duration := some (21/5) }] []
      = ([{ text := pstr "Hello", start := 0, duration := some (7/2), speaker := some (pstr "John") },
          { text := pstr "Thanks, John.", start := 1, duration := some (21/5),
            speaker := some (pstr "Sarah") }],
         [(pstr "John", [0]), (pstr "Sarah", [1])]) := by
  with_unfolding_all decide

/-- C5 counterexample: the claim says every string not of shape M+:SS or
H+:MM:SS fails with an error naming the string, for both entry points.
But parse_timestamp accepts "1:2" (one-digit seconds) and returns a value
rather than any error, and timestamp_to_seconds accepts "1:23" followed by a
newline (the regex dollar anchor tolerates one trailing newline). -/
theorem c5_counterexample :
    parse_timestamp (pstr "1:2") = some 62 ∧
    timestamp_to_seconds (pstr "1:23\n") = .ok 83 := by
  constructor
  · decide
  · with_unfolding_all decide

/-- C4 counterexample: a cue whose dict has no "duration" key makes
format_transcript_text raise KeyError instead of treating the duration as
zero. -/
theorem c4_counterexample :
    format_transcript_text [{ text := pstr "a", start := 0, duration := none }] none
      = .error (.keyError (pstr "duration")) := by
  with_unfolding_all decide

/-- C3 counterexample: with an empty-text first cue the emitted window texts
joined by single spaces ("b") differ from the input cue texts joined by
single spaces (" b"); and a cue without duration makes the reflow loop raise
rather than emit windows at all. -/
theorem c3_counterexample :
    (reflowWindows [{ text := [], start := 0, duration := some 0 },
                    { text := pstr "b", start := 0, duration := some 0 }]
        = .ok [((0 : ℚ), pstr "b")] ∧
      joinSep (pstr " ") [pstr "b"] ≠
        joinSep (pstr " ") (List.map Cue.text
          [{ text := [], start := 0, duration := some 0 },
           { text := pstr "b", start := 0, duration := some 0 }])) ∧
    reflowWindows [{ text := pstr "a", start := 0, duration := none }]
      = .error (.keyError (pstr "duration")) := by
  refine ⟨⟨?_, ?_⟩, ?_⟩
  · with_unfolding_all decide
  · decide
  · with_unfolding_all decide

/-- C8 counterexample: format_transcript_text sorts the caller-supplied
chapter list in place, so after the call the caller's list is reordered:
the supplied [B(20s), A(10s)] has become [A, B]. -/
theorem c8_counterexample :
    format_transcript_text_chapters_after [{ text := pstr "a", start := 0, duration := some 1 }]
        (some [{ title := pstr "B", start_time := 20, start_time_formatted := pstr "00:20" },
               { title := pstr "A", start_time := 10, start_time_formatted := pstr "00:10" }])
      = some [{ title := pstr "A", start_time := 10, start_time_formatted := pstr "00:10" },
              { title := pstr "B", start_time := 20, start_time_formatted := pstr "00:20" }] ∧
    format_transcript_text_chapters_after [{ text := pstr "a", start := 0, duration := some 1 }]
        (some [{ title := pstr "B", start_time := 20, start_time_formatted := pstr "00:20" },
               { title := pstr "A", start_time := 10, start_time_formatted := pstr "00:10" }])
      ≠ some [{ title := pstr "B", start_time := 20, start_time_formatted := pstr "00:20" },
              { title := pstr "A", start_time := 10, start_time_formatted := pstr "00:10" }] := by
  constructor
  · with_unfolding_all decide
  · with_unfolding_all decide

/-- C6 counterexample: with a negative radius, a negative duration, or a
negative target, find_transcript_segment keeps cues whose closed interval
does not intersect the claim's window [max(0, target − radius),
target + radius] (which is then empty), so the claim's "exactly the
intersecting cues" fails as stated for arbitrary radius and durations. -/
theorem c6_counterexample :
    (find_transcript_segment [{ text := pstr "x", start := 8, duration := some 4 }] 10 (-3)
        = [{ text := pstr "x", start := 8, duration := some 4 }] ∧
      ¬ (Set.Icc (8 : ℚ) (8 + 4) ∩
          Set.Icc ((max 0 (10 - (-3)) : ℤ) : ℚ) (((10 + (-3) : ℤ)) : ℚ)).Nonempty) ∧
    (find_transcript_segment [{ text := pstr "y", start := 5, duration := some (-10) }] 30 30
        = [{ text := pstr "y", start := 5, duration := some (-10) }] ∧
      ¬ (Set.Icc (5 : ℚ) (5 + (-10)) ∩
          Set.Icc ((max 0 (30 - 30) : ℤ) : ℚ) ((30 + 30 : ℤ) : ℚ)).Nonempty) ∧
    (find_transcript_segment [{ text := pstr "z", start := -5, duration := some 2 }] (-100) 30
        = [{ text := pstr "z", start := -5, duration := some 2 }] ∧
      ¬ (Set.Icc (-5 : ℚ) (-5 + 2) ∩
          Set.Icc ((max 0 (-100 - 30) : ℤ) : ℚ) ((-100 + 30 : ℤ) : ℚ)).Nonempty) := by
  refine ⟨⟨?_, ?_⟩, ⟨?_, ?_⟩, ⟨?_, ?_⟩⟩
  · with_unfolding_all decide
  · rw [Set.Icc_inter_Icc, Set.nonempty_Icc]
    push_cast
    norm_num
  · with_unfolding_all decide
  · rw [Set.Icc_inter_Icc, Set.nonempty_Icc]
    push_cast
    norm_num
  · with_unfolding_all decide
  · rw [Set.Icc_inter_Icc, Set.nonempty_Icc]
    push_cast
    norm_num

theorem reflowStep_some {st : ReflowState} {c : Cue} {d : ℚ} (hdc : c.duration = some d) :
    reflowStep st c = .ok (reflowStepD st c d) := by
  unfold reflowStep
  rw [hdc]

theorem reflow_fold_total (T : List Cue) (st : ReflowState)
    (hd : ∀ c ∈ T, c.duration ≠ none) :
    ∃ st', T.foldlM reflowStep st = .ok st' := by
  induction T generalizing st with
  | nil => exact ⟨st, rfl⟩
  | cons c t ih =>
    obtain ⟨d, hdc⟩ : ∃ d, c.duration = some d := by
      cases hc : c.duration with
      | none => exact absurd hc (hd c (List.mem_cons_self c t))
      | some d => exact ⟨d, rfl⟩
    obtain ⟨st', hst'⟩ := ih (reflowStepD st c d) (fun x hx => hd x (List.mem_cons_of_mem _ hx))
    refine ⟨st', ?_⟩
    rw [List.foldlM_cons, reflowStep_some hdc]
    exact hst'

/-- C4 amended: format_transcript_text never raises when every cue carries a
duration value, and an empty cue sequence yields the empty output; a cue with
a missing duration raises KeyError instead of being treated as zero (see the
counterexample). -/
theorem c4_total_when_durations_present (transcript : List Cue)
    (chapters : Option (List Chapter)) (hd : ∀ c ∈ transcript, c.duration ≠ none) :
    (∃ out, format_transcript_text transcript chapters = .ok out) ∧
    format_transcript_text [] chapters = .ok [] := by
  constructor
  · cases transcript with
    | nil => exact ⟨[], rfl⟩
    | cons first rest =>
      obtain ⟨st', hst'⟩ := reflow_fold_total (first :: rest)
        (initReflowState first (truthyChapters chapters)) hd
      refine ⟨renderReflow (truthyChapters chapters) st', ?_⟩
      simp only [format_transcript_text]
      rw [hst']
      rfl
  · rfl

/-- Witness for `c4_total_when_durations_present`. -/
theorem c4_witness :
    (∀ c ∈ [{ text := pstr "a", start := 0, duration := some 1 : Cue }], c.duration ≠ none) ∧
    ((∃ out, format_transcript_text [{ text := pstr "a", start := 0, duration := some 1 }] none
        = .ok out) ∧
      format_transcript_text [] none = .ok []) :=
  ⟨by decide, c4_total_when_durations_present _ none (by decide)⟩

instance : IsTotal Chapter (fun a b => a.start_time ≤ b.start_time) :=
  ⟨fun a b => le_total a.start_time b.start_time⟩

instance : IsTrans Chapter (fun a b => a.start_time ≤ b.start_time) :=
  ⟨fun _ _ _ h1 h2 => le_trans h1 h2⟩

/-- C8 amended: when the transcript is nonempty and a chapter list is
supplied, the caller's list after the call is the stable ascending sort of
what was passed in — a permutation sorted by start time, not necessarily the
original ordering (list.sort mutates it in place); with an empty transcript
the list is untouched. -/
theorem c8_chapters_sorted_in_place (transcript : List Cue) (l : List Chapter)
    (h : transcript ≠ []) :
    format_transcript_text_chapters_after transcript (some l) = some (sortChaptersByStart l) ∧
    (sortChaptersByStart l).Perm l ∧
    List.Sorted (fun a b => a.start_time ≤ b.start_time) (sortChaptersByStart l) ∧
    format_transcript_text_chapters_after [] (some l) = some l := by
  refine ⟨?_, List.perm_insertionSort _ _, List.sorted_insertionSort _ _, rfl⟩
  cases transcript with
  | nil => exact absurd rfl h
  | cons c t =>
    show sortIfTruthy (some l) = some (sortChaptersByStart l)
    simp only [sortIfTruthy]
    split
    · rename_i hl
      have hnil : l = [] := by simpa using hl
      subst hnil
      rfl
    · rfl

/-- Witness for `c8_chapters_sorted_in_place`. -/
theorem c8_witness :
    ([{ text := pstr "a", start := 0, duration := some 1 : Cue }] ≠ []) ∧
    (format_transcript_text_chapters_after [{ text := pstr "a", start := 0, duration := some 1 }]
        (some [{ title := pstr "B", start_time := 20, start_time_formatted := pstr "00:20" },
               { title := pstr "A", start_time := 10, start_time_formatted := pstr "00:10" }])
      = some (sortChaptersByStart
          [{ title := pstr "B", start_time := 20, start_time_formatted := pstr "00:20" },
           { title := pstr "A", start_time := 10, start_time_formatted := pstr "00:10" }]) ∧
      (sortChaptersByStart
          [{ title := pstr "B", start_time := 20, start_time_formatted := pstr "00:20" },
           { title := pstr "A", start_time := 10, start_time_formatted := pstr "00:10" }]).Perm
        [{ title := pstr "B", start_time := 20, start_time_formatted := pstr "00:20" },
         { title := pstr "A", start_time := 10, start_time_formatted := pstr "00:10" }] ∧
      List.Sorted (fun a b => a.start_time ≤ b.start_time)
        (sortChaptersByStart
          [{ title := pstr "B", start_time := 20, start_time_formatted := pstr "00:20" },
           { title := pstr "A", start_time := 10, start_time_formatted := pstr "00:10" }]) ∧
      format_transcript_text_chapters_after []
        (some [{ title := pstr "B", start_time := 20, start_time_formatted := pstr "00:20" },
               { title := pstr "A", start_time := 10, start_time_formatted := pstr "00:10" }])
        = some [{ title := pstr "B", start_time := 20, start_time_formatted := pstr "00:20" },
                { title := pstr "A", start_time := 10, start_time_formatted := pstr "00:10" }]) :=
  ⟨by decide, c8_chapters_sorted_in_place _ _ (by decide)⟩

theorem containsStr_nil (s : PyStr) : containsStr [] s = true := by
  cases s <;> rfl

theorem dropWhile_head_false {p : Char → Bool} {s : PyStr} {c : Char} {t : PyStr}
    (h : s.dropWhile p = c :: t) : p c = false := by
  induction s with
  | nil => simp at h
  | cons a s' ih =>
    rw [List.dropWhile_cons] at h
    by_cases hp : p a = true
    · rw [if_pos hp] at h
      exact ih h
    · rw [if_neg hp] at h
      obtain ⟨rfl, -⟩ := List.cons.inj h
      exact Bool.eq_false_iff.mpr hp

theorem stripTrailing_prefix (s : PyStr) : stripTrailing s <+: s := by
  unfold stripTrailing
  conv_rhs => rw [← List.reverse_reverse s]
  exact List.reverse_prefix.mpr (List.dropWhile_suffix _)

theorem pyStrip_head_not_ws {s : PyStr} {c : Char} {t : PyStr}
    (h : pyStrip s = c :: t) : isPyWS c = false := by
  unfold pyStrip at h
  obtain ⟨r, hr⟩ := stripTrailing_prefix (stripLeading s)
  rw [h] at hr
  have hsl : stripLeading s = c :: (t ++ r) := by rw [← hr]; simp
  exact dropWhile_head_false (show List.dropWhile isPyWS s = c :: (t ++ r) from hsl)

theorem pySplitWSAux_ne_nil {cur : PyStr} (h : cur ≠ []) (s : PyStr) :
    pySplitWSAux cur s ≠ [] := by
  induction s generalizing cur with
  | nil =>
    unfold pySplitWSAux
    rw [if_neg (by simpa using h)]
    simp
  | cons c t ih =>
    unfold pySplitWSAux
    by_cases hc : isPyWS c = true
    · rw [if_pos hc, if_neg (by simpa using h)]
      simp
    · rw [if_neg hc]
      exact ih (by simp)

theorem pySplitWS_ne_nil_of_head {c : Char} {t : PyStr} (hc : isPyWS c = false) :
    pySplitWS (c :: t) ≠ [] := by
  unfold pySplitWS pySplitWSAux
  rw [if_neg (by simp [hc])]
  exact pySplitWSAux_ne_nil (by simp) t

theorem fuzzyStep_nonzero {cw : List PyStr} (hcw : cw.length ≠ 0)
    (acc : Option (Cue × ℚ)) (item : Cue) :
    ∃ r, fuzzyStep cw acc item = .ok r := by
  unfold fuzzyStep
  rw [if_neg hcw]
  split
  · exact ⟨_, rfl⟩
  · exact ⟨_, rfl⟩

theorem fuzzy_fold_total {cw : List PyStr} (hcw : cw.length ≠ 0)
    (T : List Cue) (acc : Option (Cue × ℚ)) :
    ∃ r, T.foldlM (fuzzyStep cw) acc = .ok r := by
  induction T generalizing acc with
  | nil => exact ⟨acc, rfl⟩
  | cons c t ih =>
    obtain ⟨r1, hr1⟩ := fuzzyStep_nonzero hcw acc c
    obtain ⟨r, hr⟩ := ih r1
    refine ⟨r, ?_⟩
    rw [List.foldlM_cons, hr1]
    exact hr

/-- C10: find_claim_in_transcript is total and never raises: for every
transcript, claim and fuzzy flag the result is an `.ok` value — in
particular the fuzzy score's division by the number of claim words is never
a division by zero, since a whitespace-only claim is caught by the exact
containment scan whenever the transcript is nonempty, and both loops are
vacuous on an empty transcript. -/
theorem c10_find_claim_total (transcript : List Cue) (claim : PyStr) (fuzzy_match : Bool) :
    ∃ r, find_claim_in_transcript transcript claim fuzzy_match = .ok r := by
  unfold find_claim_in_transcript
  cases hfind : exactPhase transcript (pyStrip (pyLower claim)) with
  | some item => exact ⟨_, rfl⟩
  | none =>
    cases fuzzy_match with
    | false => exact ⟨none, rfl⟩
    | true =>
      rw [if_pos rfl]
      cases transcript with
      | nil => exact ⟨none, rfl⟩
      | cons t0 rest =>
        cases hnc : pyStrip (pyLower claim) with
        | nil =>
          exfalso
          unfold exactPhase at hfind
          rw [List.find?_cons_of_pos _ (by rw [hnc]; exact containsStr_nil _)] at hfind
          exact Option.noConfusion hfind
        | cons c t =>
          have hcw : (wordSetOf (c :: t)).length ≠ 0 := by
            unfold wordSetOf
            intro hzero
            exact pySplitWS_ne_nil_of_head (pyStrip_head_not_ws hnc)
              ((List.dedup_eq_nil _).mp (List.length_eq_zero.mp hzero))
          obtain ⟨r, hr⟩ := fuzzy_fold_total hcw (t0 :: rest) none
          unfold fuzzyPhase
          rw [hr]
          cases r with
          | none => exact ⟨none, rfl⟩
          | some p => exact ⟨_, rfl⟩

theorem joinSep_append_singleton {sep : PyStr} {xs : List PyStr} (h : xs ≠ []) (y : PyStr) :
    joinSep sep (xs ++ [y]) = joinSep sep xs ++ sep ++ y := by
  induction xs with
  | nil => exact absurd rfl h
  | cons x xs ih =>
    cases xs with
    | nil => simp [joinSep]
    | cons x2 xs2 =>
      have hih := ih (List.cons_ne_nil x2 xs2)
      have e1 : joinSep sep ((x :: x2 :: xs2) ++ [y])
          = x ++ sep ++ joinSep sep ((x2 :: xs2) ++ [y]) := rfl
      have e2 : joinSep sep (x :: x2 :: xs2) = x ++ sep ++ joinSep sep (x2 :: xs2) := rfl
      rw [e1, e2, hih]
      simp [List.append_assoc]

theorem joinSep_merge {sep : PyStr} (xs : List PyStr) (a b : PyStr) :
    joinSep sep (xs ++ [a ++ sep ++ b]) = joinSep sep (xs ++ [a]) ++ sep ++ b := by
  cases xs with
  | nil => simp [joinSep]
  | cons x xs' =>
    rw [joinSep_append_singleton (List.cons_ne_nil x xs'),
      joinSep_append_singleton (List.cons_ne_nil x xs')]
    simp [List.append_assoc]

/-- The invariant of the merge loop tying the emitted window texts to the
cue texts processed so far. -/
def ReflowInv (P : List Cue) (st : ReflowState) : Prop :=
  (P = [] ∧ st.windows = [] ∧ st.curText = [] ∧ st.curDur = 0) ∨
  (P ≠ [] ∧ st.curText ≠ [] ∧
    joinSep [' '] (st.windows.map Prod.snd ++ [st.curText]) = joinSep [' '] (P.map Cue.text))

theorem reflow_inv_step {P : List Cue} {st : ReflowState} {c : Cue} {d : ℚ}
    (htext : c.text ≠ []) (hInv : ReflowInv P st) :
    ReflowInv (P ++ [c]) (reflowStepD st c d) := by
  unfold reflowStepD
  by_cases hcond : st.curDur > 0 ∧ st.curDur + d > 10
  · rw [if_pos hcond]
    rcases hInv with ⟨hP, hW, hT, hD⟩ | ⟨hP, hT, hJ⟩
    · rw [hD] at hcond
      exact absurd hcond.1 (lt_irrefl 0)
    · right
      refine ⟨by simp, htext, ?_⟩
      simp only [List.map_append, List.map_cons, List.map_nil]
      rw [joinSep_append_singleton (by simp : st.windows.map Prod.snd ++ [st.curText] ≠ []), hJ,
        joinSep_append_singleton (by simpa using hP : P.map Cue.text ≠ [])]
  · rw [if_neg hcond]
    rcases hInv with ⟨hP, hW, hT, hD⟩ | ⟨hP, hT, hJ⟩
    · right
      subst hP
      refine ⟨by simp, ?_, ?_⟩
      · show (if st.curText ≠ [] then st.curText ++ ' ' :: c.text else c.text) ≠ []
        rw [if_neg (by simp [hT])]
        exact htext
      · show joinSep [' '] (st.windows.map Prod.snd ++
            [if st.curText ≠ [] then st.curText ++ ' ' :: c.text else c.text]) = _
        rw [if_neg (by simp [hT]), hW]
        simp [joinSep]
    · right
      refine ⟨by simp, ?_, ?_⟩
      · show (if st.curText ≠ [] then st.curText ++ ' ' :: c.text else c.text) ≠ []
        rw [if_pos hT]
        simp [hT]
      · show joinSep [' '] (st.windows.map Prod.snd ++
            [if st.curText ≠ [] then st.curText ++ ' ' :: c.text else c.text]) = _
        rw [if_pos hT]
        rw [show st.curText ++ ' ' :: c.text = st.curText ++ [' '] ++ c.text from by simp]
        rw [joinSep_merge, hJ]
        rw [show (P ++ [c]).map Cue.text = P.map Cue.text ++ [c.text] from by simp]
        rw [joinSep_append_singleton (by simpa using hP : P.map Cue.text ≠ [])]

theorem reflow_fold_inv (T : List Cue) (P : List Cue) (st : ReflowState)
    (hd : ∀ c ∈ T, c.duration ≠ none) (ht : ∀ c ∈ T, c.text ≠ [])
    (hInv : ReflowInv P st) :
    ∃ st', T.foldlM reflowStep st = .ok st' ∧ ReflowInv (P ++ T) st' := by
  induction T generalizing P st with
  | nil => exact ⟨st, rfl, by simpa using hInv⟩
  | cons c t ih =>
    obtain ⟨d, hdc⟩ : ∃ d, c.duration = some d := by
      cases hc : c.duration with
      | none => exact absurd hc (hd c (List.mem_cons_self c t))
      | some d => exact ⟨d, rfl⟩
    obtain ⟨st', hst', hInv'⟩ := ih (P ++ [c]) (reflowStepD st c d)
      (fun x hx => hd x (List.mem_cons_of_mem _ hx))
      (fun x hx => ht x (List.mem_cons_of_mem _ hx))
      (reflow_inv_step (ht c (List.mem_cons_self c t)) hInv)
    refine ⟨st', ?_, by simpa using hInv'⟩
    rw [List.foldlM_cons, reflowStep_some hdc]
    exact hst'

/-- C3 amended: when every cue has nonempty text and carries a duration,
concatenating the emitted window texts with single spaces reproduces the cue
texts joined by single spaces, in order, and format_transcript_text renders
exactly those windows; an empty-text cue breaks the space accounting and a
missing duration raises instead (see the counterexample). -/
theorem c3_reflow_non_loss (transcript : List Cue)
    (ht : ∀ c ∈ transcript, c.text ≠ []) (hd : ∀ c ∈ transcript, c.duration ≠ none) :
    ∃ ws, reflowWindows transcript = .ok ws ∧
      joinSep [' '] (ws.map Prod.snd) = joinSep [' '] (transcript.map Cue.text) ∧
      format_transcript_text transcript none = .ok (joinSep ['\n'] (ws.map renderWindow)) := by
  cases htr : transcript with
  | nil => exact ⟨[], rfl, rfl, rfl⟩
  | cons t0 rest =>
    obtain ⟨st', hst', hInv'⟩ := reflow_fold_inv (t0 :: rest) [] (initReflowState t0 [])
      (htr ▸ hd) (htr ▸ ht) (Or.inl ⟨rfl, rfl, rfl, rfl⟩)
    refine ⟨finalWindows st', ?_, ?_, ?_⟩
    · show Except.map finalWindows
          (List.foldlM reflowStep (initReflowState t0 []) (t0 :: rest)) = Except.ok (finalWindows st')
      rw [hst']
      rfl
    · rcases hInv' with ⟨hP, -, -, -⟩ | ⟨-, hT, hJ⟩
      · simp at hP
      · unfold finalWindows
        rw [if_pos hT]
        simp only [List.map_append, List.map_cons, List.map_nil]
        simpa using hJ
    · show (List.foldlM reflowStep (initReflowState t0 (truthyChapters none)) (t0 :: rest)).map
        (renderReflow (truthyChapters none)) = _
      rw [show truthyChapters none = [] from rfl, hst']
      rfl

/-- Witness for `c3_reflow_non_loss`. -/
theorem c3_witness :
    (∀ c ∈ [{ text := pstr "a", start := 0, duration := some 6 : Cue },
            { text := pstr "b", start := 6, duration := some 6 : Cue }], c.text ≠ []) ∧
    (∀ c ∈ [{ text := pstr "a", start := 0, duration := some 6 : Cue },
            { text := pstr "b", start := 6, duration := some 6 : Cue }], c.duration ≠ none) ∧
    (∃ ws, reflowWindows [{ text := pstr "a", start := 0, duration := some 6 },
                          { text := pstr "b", start := 6, duration := some 6 }] = .ok ws ∧
      joinSep [' '] (ws.map Prod.snd) = joinSep [' ']
        (List.map Cue.text [{ text := pstr "a", start := 0, duration := some 6 },
                            { text := pstr "b", start := 6, duration := some 6 }]) ∧
      format_transcript_text [{ text := pstr "a", start := 0, duration := some 6 },
                              { text := pstr "b", start := 6, duration := some 6 }] none
        = .ok (joinSep ['\n'] (ws.map renderWindow))) :=
  ⟨by decide, by decide, c3_reflow_non_loss _ (by decide) (by decide)⟩

instance iccInterNonemptyDec (a b c d : ℚ) :
    Decidable ((Set.Icc a b ∩ Set.Icc c d).Nonempty) :=
  decidable_of_iff (a ⊔ c ≤ b ⊓ d) (by rw [Set.Icc_inter_Icc, Set.nonempty_Icc])

/-- C6 amended: with a nonnegative radius, a nonnegative target and
nonnegative cue durations, find_transcript_segment returns exactly the cues
whose closed interval [start, start + duration] meets the closed window
[max(0, target - radius), target + radius]; for negative radius, target or
durations the three overlap tests can keep cues whose interval misses the
(then empty) window (see the counterexample). -/
theorem c6_segment_selection (transcript : List Cue) (target context : Int)
    (hr : 0 ≤ context) (htg : 0 ≤ target)
    (hdur : ∀ c ∈ transcript, 0 ≤ c.duration.getD 0) :
    find_transcript_segment transcript target context
      = transcript.filter (fun c =>
          decide ((Set.Icc c.start (c.start + c.duration.getD 0) ∩
            Set.Icc ((max 0 (target - context) : Int) : ℚ)
              ((target + context : Int) : ℚ)).Nonempty)) := by
  unfold find_transcript_segment
  apply List.filter_congr
  intro c hc
  have hd : (0 : ℚ) ≤ c.duration.getD 0 := hdur c hc
  have hABz : (max 0 (target - context) : Int) ≤ target + context := by
    rw [max_le_iff]
    omega
  have hAB : ((max 0 (target - context) : Int) : ℚ) ≤ ((target + context : Int) : ℚ) := by
    exact_mod_cast hABz
  have hab : c.start ≤ c.start + c.duration.getD 0 := le_add_of_nonneg_right hd
  unfold cueOverlapCheck
  rw [Bool.eq_iff_iff]
  simp only [Bool.or_eq_true, Bool.and_eq_true, decide_eq_true_eq]
  rw [Set.Icc_inter_Icc, Set.nonempty_Icc, sup_le_iff, le_inf_iff, le_inf_iff]
  constructor
  · rintro ((⟨h1, h2⟩ | ⟨h1, h2⟩) | ⟨h1, h2⟩) <;>
      refine ⟨⟨?_, ?_⟩, ?_, ?_⟩ <;> linarith
  · rintro ⟨⟨hb, hB⟩, hAb, hAB2⟩
    rcases le_or_lt (((max 0 (target - context) : Int) : ℚ)) c.start with hc1 | hc1
    · exact Or.inl (Or.inl ⟨hc1, by linarith⟩)
    · rcases le_or_lt (c.start + c.duration.getD 0) (((target + context : Int) : ℚ)) with hc2 | hc2
      · exact Or.inl (Or.inr ⟨hAb, hc2⟩)
      · exact Or.inr ⟨by linarith, by linarith⟩

/-- Witness for `c6_segment_selection`. -/
theorem c6_witness :
    ((0 : Int) ≤ 30) ∧ ((0 : Int) ≤ 30) ∧
    (∀ c ∈ [{ text := pstr "z", start := 25, duration := some 10 : Cue }],
      (0 : ℚ) ≤ c.duration.getD 0) ∧
    find_transcript_segment [{ text := pstr "z", start := 25, duration := some 10 }] 30 30
      = List.filter (fun c =>
          decide ((Set.Icc c.start (c.start + c.duration.getD 0) ∩
            Set.Icc ((max 0 (30 - 30 : Int) : Int) : ℚ) ((30 + 30 : Int) : ℚ)).Nonempty))
          [{ text := pstr "z", start := 25, duration := some 10 }] :=
  ⟨by decide, by decide, by
    intro c hc
    rw [List.mem_singleton.mp hc]
    norm_num, c6_segment_selection _ 30 30 (by decide) (by decide) (by
    intro c hc
    rw [List.mem_singleton.mp hc]
    norm_num)⟩

def IsDigitStr (s : PyStr) : Prop := ∀ c ∈ s, c.isDigit = true

/-- The language of the minutes:seconds pattern, stated declaratively: one or
more digits, a colon, exactly two digits, optionally one final newline (which
the regex dollar anchor tolerates). -/
def ShapeMS (s : PyStr) : Prop :=
  ∃ ds a b t, IsDigitStr ds ∧ ds ≠ [] ∧ a.isDigit = true ∧ b.isDigit = true ∧
    (t = [] ∨ t = ['\n']) ∧ s = ds ++ ':' :: a :: b :: t

/-- The language of the hours:minutes:seconds pattern, stated declaratively. -/
def ShapeHMS (s : PyStr) : Prop :=
  ∃ ds a b u v t, IsDigitStr ds ∧ ds ≠ [] ∧ a.isDigit = true ∧ b.isDigit = true ∧
    u.isDigit = true ∧ v.isDigit = true ∧
    (t = [] ∨ t = ['\n']) ∧ s = ds ++ ':' :: a :: b :: ':' :: u :: v :: t

theorem matchClock2_iff (s : PyStr) : matchClock2 s = true ↔ ShapeMS s := by
  constructor
  · intro h
    unfold matchClock2 at h
    rw [Bool.and_eq_true] at h
    obtain ⟨h1, h2⟩ := h
    split at h2
    · rename_i a b t heq
      refine ⟨s.takeWhile Char.isDigit, a, b, t, ?_, ?_, ?_, ?_, ?_, ?_⟩
      · exact fun c hc => List.mem_takeWhile_imp hc
      · intro hnil
        rw [hnil] at h1
        simp at h1
      · rw [Bool.and_eq_true, Bool.and_eq_true] at h2
        exact h2.1.1
      · rw [Bool.and_eq_true, Bool.and_eq_true] at h2
        exact h2.1.2
      · rw [Bool.and_eq_true, Bool.and_eq_true, Bool.or_eq_true] at h2
        rcases h2.2 with ht | ht
        · exact Or.inl (by simpa using ht)
        · exact Or.inr (by simpa using ht)
      · conv_lhs => rw [← List.takeWhile_append_dropWhile Char.isDigit s, heq]
    · exact absurd h2 (by simp)
  · rintro ⟨ds, a, b, t, hds, hne, ha, hb, ht, rfl⟩
    unfold matchClock2
    rw [takeWhile_append_of_all hds (by decide), dropWhile_append_of_all hds (by decide)]
    show (!ds.isEmpty && (a.isDigit && b.isDigit && (t.isEmpty || t == ['\n']))) = true
    rw [ha, hb, isEmpty_false_of_ne_nil hne]
    rcases ht with rfl | rfl <;> rfl

theorem matchClock3_iff (s : PyStr) : matchClock3 s = true ↔ ShapeHMS s := by
  constructor
  · intro h
    unfold matchClock3 at h
    rw [Bool.and_eq_true] at h
    obtain ⟨h1, h2⟩ := h
    split at h2
    · rename_i a b u v t heq
      simp only [Bool.and_eq_true, Bool.or_eq_true] at h2
      refine ⟨s.takeWhile Char.isDigit, a, b, u, v, t, ?_, ?_,
        h2.1.1.1.1, h2.1.1.1.2, h2.1.1.2, h2.1.2, ?_, ?_⟩
      · exact fun c hc => List.mem_takeWhile_imp hc
      · intro hnil
        rw [hnil] at h1
        simp at h1
      · rcases h2.2 with ht | ht
        · exact Or.inl (by simpa using ht)
        · exact Or.inr (by simpa using ht)
      · conv_lhs => rw [← List.takeWhile_append_dropWhile Char.isDigit s, heq]
    · exact absurd h2 (by simp)
  · rintro ⟨ds, a, b, u, v, t, hds, hne, ha, hb, hu, hv, ht, rfl⟩
    unfold matchClock3
    rw [takeWhile_append_of_all hds (by decide), dropWhile_append_of_all hds (by decide)]
    show (!ds.isEmpty &&
      (a.isDigit && b.isDigit && u.isDigit && v.isDigit && (t.isEmpty || t == ['\n']))) = true
    rw [ha, hb, hu, hv, isEmpty_false_of_ne_nil hne]
    rcases ht with rfl | rfl <;> rfl

/-- C5 amended: timestamp_to_seconds raises ValueError naming the offending
string on every input matching neither clock shape (the shapes being exactly
the two regex languages, digit run + colon + two digits (+ optional final
newline), with or without the hours group); parse_timestamp, by contrast,
returns None rather than raising and accepts further shapes such as "1:2"
(see the counterexample). -/
theorem c5_invalid_timestamp_error (s : PyStr)
    (h2 : matchClock2 s = false) (h3 : matchClock3 s = false) :
    timestamp_to_seconds s = .error (.valueError (invalidTimestampMsg s)) ∧
    (matchClock2 s = true ↔ ShapeMS s) ∧ (matchClock3 s = true ↔ ShapeHMS s) := by
  refine ⟨?_, matchClock2_iff s, matchClock3_iff s⟩
  unfold timestamp_to_seconds
  rw [h2, h3]
  rfl

/-- Witness for `c5_invalid_timestamp_error`. -/
theorem c5_witness :
    matchClock2 (pstr "abc") = false ∧ matchClock3 (pstr "abc") = false ∧
    (timestamp_to_seconds (pstr "abc")
        = .error (.valueError (invalidTimestampMsg (pstr "abc"))) ∧
      (matchClock2 (pstr "abc") = true ↔ ShapeMS (pstr "abc")) ∧
      (matchClock3 (pstr "abc") = true ↔ ShapeHMS (pstr "abc"))) :=
  ⟨by decide, by decide, c5_invalid_timestamp_error (pstr "abc") (by decide) (by decide)⟩

/-- The pure state update of one fuzzy-loop iteration (the loop body once the
division is known not to raise). -/
def fuzzyStepP (claimWords : List PyStr) (acc : Option (Cue × ℚ)) (item : Cue) :
    Option (Cue × ℚ) :=
  if fuzzyScore claimWords item > 1/2 ∧ fuzzyScore claimWords item > bestScoreOf acc then
    some (item, fuzzyScore claimWords item)
  else acc

theorem fuzzyStep_eq_pure {cw : List PyStr} (h : cw.length ≠ 0)
    (acc : Option (Cue × ℚ)) (item : Cue) :
    fuzzyStep cw acc item = .ok (fuzzyStepP cw acc item) := by
  unfold fuzzyStep fuzzyStepP
  rw [if_neg h]
  split
  · rfl
  · rfl

theorem fuzzy_foldlM_eq_pure {cw : List PyStr} (h : cw.length ≠ 0) (T : List Cue)
    (acc : Option (Cue × ℚ)) :
    T.foldlM (fuzzyStep cw) acc = .ok (T.foldl (fuzzyStepP cw) acc) := by
  induction T generalizing acc with
  | nil => rfl
  | cons c t ih =>
    rw [List.foldlM_cons, fuzzyStep_eq_pure h, List.foldl_cons]
    show t.foldlM (fuzzyStep cw) (fuzzyStepP cw acc c) = _
    exact ih _

theorem fuzzyScore_nonneg (cw : List PyStr) (item : Cue) : 0 ≤ fuzzyScore cw item := by
  unfold fuzzyScore
  positivity

theorem init_le_foldl_max (l : List ℚ) (a : ℚ) : a ≤ l.foldl max a := by
  induction l generalizing a with
  | nil => simp
  | cons y t ih => exact le_trans (le_max_left a y) (ih (max a y))

theorem le_foldl_max (l : List ℚ) (a : ℚ) : ∀ x ∈ l, x ≤ l.foldl max a := by
  induction l generalizing a with
  | nil => intro x hx; simp at hx
  | cons y t ih =>
    intro x hx
    rw [List.foldl_cons]
    rcases List.mem_cons.mp hx with rfl | hx
    · exact le_trans (le_max_right a x) (init_le_foldl_max t (max a x))
    · exact ih _ x hx

theorem foldl_max_mem (l : List ℚ) (a : ℚ) : l.foldl max a = a ∨ l.foldl max a ∈ l := by
  induction l generalizing a with
  | nil => left; rfl
  | cons y t ih =>
    rw [List.foldl_cons]
    rcases ih (max a y) with h | h
    · rcases le_total a y with hay | hay
      · right
        rw [h, max_eq_right hay]
        exact List.mem_cons_self y t
      · left
        rw [h, max_eq_left hay]
    · right
      exact List.mem_cons_of_mem _ h

theorem fuzzy_foldl_pure_eq_spec (cw : List PyStr) (T : List Cue) :
    T.foldl (fuzzyStepP cw) none = fuzzyBestSpec cw T := by
  induction T using List.reverseRecOn with
  | nil => norm_num [fuzzyBestSpec]
  | append_singleton T c ih =>
    have hmx'_eq : ((T ++ [c]).map (fuzzyScore cw)).foldl max 0
        = max ((T.map (fuzzyScore cw)).foldl max 0) (fuzzyScore cw c) := by
      rw [List.map_append, List.foldl_append]
      rfl
    have hscored : (T ++ [c]).map (fun x => (x, fuzzyScore cw x))
        = T.map (fun x => (x, fuzzyScore cw x)) ++ [(c, fuzzyScore cw c)] := by
      rw [List.map_append]
      rfl
    have hub : ∀ p ∈ T.map (fun x => (x, fuzzyScore cw x)),
        p.2 ≤ (T.map (fuzzyScore cw)).foldl max 0 := by
      intro p hp
      obtain ⟨x, hx, rfl⟩ := List.mem_map.mp hp
      exact le_foldl_max _ _ _ (List.mem_map.mpr ⟨x, hx, rfl⟩)
    rw [List.foldl_append, List.foldl_cons, List.foldl_nil, ih]
    by_cases hmx : (T.map (fuzzyScore cw)).foldl max 0 > 1/2
    · have hex : ∃ p ∈ T.map (fun x => (x, fuzzyScore cw x)),
          (decide (p.2 = (T.map (fuzzyScore cw)).foldl max 0)) = true := by
        rcases foldl_max_mem (T.map (fuzzyScore cw)) 0 with h0 | hmem
        · rw [h0] at hmx
          norm_num at hmx
        · obtain ⟨x, hx, hxe⟩ := List.mem_map.mp hmem
          exact ⟨(x, fuzzyScore cw x), List.mem_map.mpr ⟨x, hx, rfl⟩, by simp [hxe]⟩
      obtain ⟨b, hbfind⟩ := Option.isSome_iff_exists.mp (List.find?_isSome.mpr hex)
      have hb2 : b.2 = (T.map (fuzzyScore cw)).foldl max 0 := by
        have := List.find?_some hbfind
        simpa using this
      have hbs : fuzzyBestSpec cw T = some b := by
        unfold fuzzyBestSpec
        rw [if_pos hmx]
        exact hbfind
      rw [hbs]
      by_cases hgt : fuzzyScore cw c > (T.map (fuzzyScore cw)).foldl max 0
      · have hcond : fuzzyScore cw c > 1/2 ∧ fuzzyScore cw c > bestScoreOf (some b) := by
          refine ⟨lt_trans hmx hgt, ?_⟩
          rw [show bestScoreOf (some b) = b.2 from rfl, hb2]
          exact hgt
        unfold fuzzyStepP
        rw [if_pos hcond]
        unfold fuzzyBestSpec
        rw [hmx'_eq, max_eq_right (le_of_lt hgt), if_pos (lt_trans hmx hgt), hscored,
          List.find?_append]
        have hnone : (T.map (fun x => (x, fuzzyScore cw x))).find?
            (fun p => decide (p.2 = fuzzyScore cw c)) = none := by
          rw [List.find?_eq_none]
          intro p hp
          simp only [decide_eq_true_eq]
          exact fun he => absurd hgt (by rw [← he]; exact not_lt.mpr (hub p hp))
        rw [hnone, Option.none_or, List.find?_cons_of_pos _ (by simp)]
      · have hcond : ¬(fuzzyScore cw c > 1/2 ∧ fuzzyScore cw c > bestScoreOf (some b)) := by
          rintro ⟨-, habs⟩
          rw [show bestScoreOf (some b) = b.2 from rfl, hb2] at habs
          exact hgt habs
        unfold fuzzyStepP
        rw [if_neg hcond]
        unfold fuzzyBestSpec
        rw [hmx'_eq, max_eq_left (not_lt.mp hgt), if_pos hmx, hscored, List.find?_append, hbfind,
          Option.or_some]
    · have hbs : fuzzyBestSpec cw T = none := by
        unfold fuzzyBestSpec
        rw [if_neg hmx]
      rw [hbs]
      by_cases hsc : fuzzyScore cw c > 1/2
      · have hcond : fuzzyScore cw c > 1/2 ∧ fuzzyScore cw c > bestScoreOf none := by
          refine ⟨hsc, ?_⟩
          rw [show bestScoreOf none = 0 from rfl]
          exact lt_trans (by norm_num) hsc
        unfold fuzzyStepP
        rw [if_pos hcond]
        unfold fuzzyBestSpec
        have hgt : (T.map (fuzzyScore cw)).foldl max 0 < fuzzyScore cw c :=
          lt_of_le_of_lt (not_lt.mp hmx) hsc
        rw [hmx'_eq, max_eq_right (le_of_lt hgt), if_pos hsc, hscored, List.find?_append]
        have hnone : (T.map (fun x => (x, fuzzyScore cw x))).find?
            (fun p => decide (p.2 = fuzzyScore cw c)) = none := by
          rw [List.find?_eq_none]
          intro p hp
          simp only [decide_eq_true_eq]
          exact fun he => absurd hgt (by rw [← he]; exact not_lt.mpr (hub p hp))
        rw [hnone, Option.none_or, List.find?_cons_of_pos _ (by simp)]
      · have hcond : ¬(fuzzyScore cw c > 1/2 ∧ fuzzyScore cw c > bestScoreOf none) := by
          rintro ⟨habs, -⟩
          exact hsc habs
        unfold fuzzyStepP
        rw [if_neg hcond]
        unfold fuzzyBestSpec
        rw [hmx'_eq,
          if_neg (not_lt.mpr (max_le (not_lt.mp hmx) (not_lt.mp hsc)))]

/-- C7: when no cue's lower-cased text contains the lower-cased trimmed
claim and fuzzy matching is enabled, find_claim_in_transcript returns
exactly the earliest cue attaining the strictly highest overlap score
|claim_words ∩ cue_words| / |claim_words|, with match_score set to that
score, and only when it strictly exceeds 1/2; a best score of 1/2 or below
yields no match. -/
theorem c7_fuzzy_best_match (transcript : List Cue) (claim : PyStr)
    (h : ∀ c ∈ transcript, containsStr (pyStrip (pyLower claim)) (pyLower c.text) = false) :
    find_claim_in_transcript transcript claim true
      = .ok ((fuzzyBestSpec (wordSetOf (pyStrip (pyLower claim))) transcript).map
          (fun p => matchResultOf p.1 (some p.2))) := by
  unfold find_claim_in_transcript
  have hfind : exactPhase transcript (pyStrip (pyLower claim)) = none := by
    unfold exactPhase
    rw [List.find?_eq_none]
    intro x hx
    rw [h x hx]
    simp
  rw [hfind, if_pos rfl]
  cases transcript with
  | nil =>
    rw [show fuzzyBestSpec (wordSetOf (pyStrip (pyLower claim))) [] = none from by
      norm_num [fuzzyBestSpec]]
    rfl
  | cons t0 rest =>
    cases hnc : pyStrip (pyLower claim) with
    | nil =>
      exfalso
      have hct := h t0 (List.mem_cons_self t0 rest)
      rw [hnc, containsStr_nil] at hct
      exact Bool.noConfusion hct
    | cons cch ct =>
      have hcw : (wordSetOf (cch :: ct)).length ≠ 0 := by
        unfold wordSetOf
        intro hzero
        exact pySplitWS_ne_nil_of_head (pyStrip_head_not_ws hnc)
          ((List.dedup_eq_nil _).mp (List.length_eq_zero.mp hzero))
      unfold fuzzyPhase
      rw [fuzzy_foldlM_eq_pure hcw, fuzzy_foldl_pure_eq_spec]
      cases hspec : fuzzyBestSpec (wordSetOf (cch :: ct)) (t0 :: rest) with
      | none => rfl
      | some p => rfl

/-- Witness for `c7_fuzzy_best_match`. -/
theorem c7_witness :
    (∀ c ∈ [{ text := pstr "weather report", start := 0, duration := some 1 : Cue },
            { text := pstr "the sky is extremely blue", start := 5, duration := some 1 : Cue }],
      containsStr (pyStrip (pyLower (pstr "the sky is blue today"))) (pyLower c.text) = false) ∧
    find_claim_in_transcript
        [{ text := pstr "weather report", start := 0, duration := some 1 },
         { text := pstr "the sky is extremely blue", start := 5, duration := some 1 }]
        (pstr "the sky is blue today") true
      = .ok ((fuzzyBestSpec (wordSetOf (pyStrip (pyLower (pstr "the sky is blue today"))))
          [{ text := pstr "weather report", start := 0, duration := some 1 },
           { text := pstr "the sky is extremely blue", start := 5, duration := some 1 }]).map
          (fun p => matchResultOf p.1 (some p.2))) :=
  ⟨by decide, c7_fuzzy_best_match _ _ (by decide)⟩
